import Mathlib

/-!
Verification development for the Chess_Games repository's opening-tree
subsystem: the tree builders (`buildVariationTree` in
src/services/utils/treeUtils.js and `incrementalBuildTree` in
src/context/ChessTreeContext.js), the pruners, the merger, the
persistence codec (`serializeTree` / `deserializeTree`), the
invalidation policy (`shouldRebuildTree`), the parameter-change handler
(`handleApplyParameters`) and the chunked build scheduler
(`startTreeBuilding`).

The JavaScript data is embedded shallowly:
* a chess.js verbose move is modelled by `Ply` with the five fields the
  tree code reads (`from`, `to`, `promotion`, `san`, `color`);
* replaying a game through chess.js yields, for each ply, the FEN of the
  resulting position; a parsed game is therefore a list of `Step`s
  (ply plus resulting FEN).  `Game.pgn` is `none` when the `pgn` field
  is falsy (the builders skip the game before touching any state),
  `some none` when `chess.loadPgn` throws (the builders skip the game
  inside the `try` block), and `some (some steps)` on success;
* a JS object used as a child map is an association list in insertion
  order (`Forest`); assigning an existing key keeps its position,
  assigning a fresh key appends it, which is exactly JS property order;
* node objects are the inductive `Node`; the optional `id` field exists
  only on nodes made by treeUtils' builder, hence `nid : Option String`.
-/

/-- One verbose chess.js move, restricted to the fields the tree code
reads.  `fromSq`/`toSq` stand for the JS properties `from`/`to`. -/
structure Ply where
  fromSq : String
  toSq : String
  promotion : Option String
  san : String
  color : String
deriving DecidableEq, Repr

/-- One replay step of a parsed game: the ply and the FEN of the position
reached after playing it (`currentChess.move(...); currentChess.fen()`). -/
structure Step where
  ply : Ply
  fen : String
deriving DecidableEq, Repr

/-- The per-game record pushed onto a node's `games` array: the eight
fields both builders copy out of the stored game. -/
structure GameSummary where
  id : String
  white : String
  black : String
  result : String
  date : String
  url : String
  whiteElo : Option Nat
  blackElo : Option Nat
deriving DecidableEq, Repr

/-- A stored game as the builders see it.  `pgn = none`: the `pgn` field
is falsy; `pgn = some none`: `loadPgn` throws; `pgn = some (some ss)`:
the game parses and replays to the steps `ss`. -/
structure Game where
  id : String
  white : String
  black : String
  result : String
  date : String
  url : String
  whiteElo : Option Nat
  blackElo : Option Nat
  pgn : Option (Option (List Step))
deriving DecidableEq, Repr

mutual

/-- A variation-tree node: `fen`, `move` (display SAN), optional
`moveObj`, the child map, the attached game summaries, `frequency`, and
the optional path-derived `id` (present only on treeUtils nodes). -/
inductive Node : Type where
  | mk (fen : String) (mv : String) (moveObj : Option Ply) (children : Forest)
       (games : List GameSummary) (frequency : Nat) (nid : Option String) : Node

/-- A JS object used as a `children` map: association list of move key
and child node, in property-insertion order. -/
inductive Forest : Type where
  | nil : Forest
  | cons (key : String) (child : Node) (rest : Forest) : Forest

end

def Node.fen : Node → String
  | .mk f _ _ _ _ _ _ => f

def Node.mv : Node → String
  | .mk _ m _ _ _ _ _ => m

def Node.moveObj : Node → Option Ply
  | .mk _ _ mo _ _ _ _ => mo

def Node.children : Node → Forest
  | .mk _ _ _ ch _ _ _ => ch

def Node.games : Node → List GameSummary
  | .mk _ _ _ _ gs _ _ => gs

def Node.frequency : Node → Nat
  | .mk _ _ _ _ _ fr _ => fr

def Node.nid : Node → Option String
  | .mk _ _ _ _ _ _ i => i

/-- Replace the child map, keeping every other field. -/
def Node.withChildren : Node → Forest → Node
  | .mk f m mo _ gs fr i, ch => .mk f m mo ch gs fr i

/-- JS `node.frequency = node.frequency + 1` (or `(node.frequency || 0) + 1`;
frequencies are Nats here, so the two coincide). -/
def Node.bumpFreq : Node → Node
  | .mk f m mo ch gs fr i => .mk f m mo ch gs (fr + 1) i

/-- JS `node.games.push(summary)` — unconditional append. -/
def Node.pushGame : Node → GameSummary → Node
  | .mk f m mo ch gs fr i, g => .mk f m mo ch (gs ++ [g]) fr i

/-- JS `if (!node.games.some(g => g.id === game.id)) node.games.push(...)` —
append the summary only when its id is not yet present. -/
def Node.addGameDedup (n : Node) (g : GameSummary) : Node :=
  if (n.games.map GameSummary.id).contains g.id then n else n.pushGame g

/-- JS `children[key]` — property lookup. -/
def Forest.lookup : Forest → String → Option Node
  | .nil, _ => none
  | .cons k c r, key => if k = key then some c else Forest.lookup r key

/-- JS `children[key] = node` — property assignment: existing keys keep
their position, fresh keys are appended. -/
def Forest.upsert : Forest → String → Node → Forest
  | .nil, key, n => .cons key n .nil
  | .cons k c r, key, n =>
      if k = key then .cons k n r else .cons k c (Forest.upsert r key n)

/-- The move key built at every ply:
backtick-template of `move.from`, `move.to` and `move.promotion ||` empty. -/
def Ply.moveKey (p : Ply) : String :=
  p.fromSq ++ p.toSq ++ p.promotion.getD ""

/-- The eight-field projection both builders push onto `games` arrays. -/
def Game.summary (g : Game) : GameSummary :=
  ⟨g.id, g.white, g.black, g.result, g.date, g.url, g.whiteElo, g.blackElo⟩

/-- The FEN of the initial position (`new Chess().fen()`); its exact text
is irrelevant to every property proved here. -/
def initialFen : String :=
  "rnbqkbnr/pppppppp/8/8/8/8/PPPPPPPP/RNBQKBNR w KQkq - 0 1"

/-! ## The context builder (`incrementalBuildTree`, ChessTreeContext.js 183-272) -/

/-- The inner move loop of `incrementalBuildTree`
(ChessTreeContext.js 218-265): resolve or create the child for the
ply's move key, increment its frequency, append the game summary if its
id is not already there, and descend with the remaining plies.  A child
created here has no `id` field, and its `moveObj` is the verbose move. -/
def insertCtx (g : GameSummary) : List Step → Node → Node
  | [], n => n
  | s :: rest, n =>
      let key := s.ply.moveKey
      let c0 := match n.children.lookup key with
        | some c => c
        | none => Node.mk s.fen s.ply.san (some s.ply) .nil [] 0 none
      let c1 := Node.addGameDedup (Node.bumpFreq c0) g
      let c2 := insertCtx g rest c1
      n.withChildren (n.children.upsert key c2)

/-- One iteration of the `gamesChunk.forEach` body of
`incrementalBuildTree` (ChessTreeContext.js 188-269): skip the game when
its `pgn` is falsy or fails to parse; otherwise add the summary to the
root's game list when the id is new (the root's frequency is never
touched here) and run the move loop over the first `maxDepth` plies. -/
def processGameCtx (maxDepth : Nat) (t : Node) (g : Game) : Node :=
  match g.pgn with
  | some (some steps) =>
      insertCtx g.summary (steps.take maxDepth) (t.addGameDedup g.summary)
  | _ => t

/-- The function `incrementalBuildTree(existingTree, gamesChunk, maxDepth)`
(ChessTreeContext.js 183-272), as the value of the returned tree. -/
def incrementalBuildTree (t : Node) (gamesChunk : List Game) (maxDepth : Nat) : Node :=
  gamesChunk.foldl (processGameCtx maxDepth) t

/-- The root placeholder built by `buildInitialTree`
(ChessTreeContext.js 109-115): initial position, empty children and
games, and frequency set once to the total number of loaded games. -/
def ctxInitialTree (loadedGames : List Game) : Node :=
  Node.mk initialFen "Initial Position" none .nil [] loadedGames.length none

/-! ## The treeUtils builder (`buildVariationTree`, part_002 / treeUtils.js) -/

/-- The string a fresh treeUtils node id starts from:
`` `${currentNode.id}_${moveKey}` `` (a missing id would print as
`undefined`; treeUtils nodes always carry one). -/
def idText : Option String → String
  | some s => s
  | none => "undefined"

/-- The inner move loop of `buildVariationTree` (treeUtils.js, part_002
lines 217-262): like `insertCtx` but the game summary is pushed
unconditionally, and a fresh child gets the path-derived id
`parentId ++ "_" ++ moveKey`. -/
def insertB (g : GameSummary) : List Step → Node → Node
  | [], n => n
  | s :: rest, n =>
      let key := s.ply.moveKey
      let c0 := match n.children.lookup key with
        | some c => c
        | none =>
            Node.mk s.fen s.ply.san (some s.ply) .nil [] 0
              (some (idText n.nid ++ "_" ++ key))
      let c1 := Node.pushGame (Node.bumpFreq c0) g
      let c2 := insertB g rest c1
      n.withChildren (n.children.upsert key c2)

/-- One iteration of the `games.forEach` body of `buildVariationTree`
(part_002 lines 186-266).  State is the root so far plus the ids the
`gameMap` has seen.  Order is the source's: a falsy `pgn` skips before
the `gameMap` check, a parse failure skips after the id was recorded;
an accepted game pushes its summary at the root, bumps the root's
frequency once, and runs the move loop. -/
def buildStep (maxDepth : Nat) : Node × List String → Game → Node × List String
  | (t, seen), g =>
      match g.pgn with
      | none => (t, seen)
      | some parsed =>
          if seen.contains g.id then (t, seen)
          else
            match parsed with
            | none => (t, g.id :: seen)
            | some steps =>
                (insertB g.summary (steps.take maxDepth)
                  (Node.bumpFreq (Node.pushGame t g.summary)), g.id :: seen)

/-- The root node `buildVariationTree` starts from (part_002 173-180). -/
def buildRoot : Node :=
  Node.mk initialFen "Initial Position" none .nil [] 0 (some "root")

mutual

/-- The function `pruneTreeNodes(node, minGames)` (treeUtils.js, part_002 275-287),
read as the value of the node after the in-place call: every child with
`frequency < minGames` is deleted, the survivors are pruned
recursively, and the node itself is never removed. -/
def pruneTreeNodes (minGames : Nat) : Node → Node
  | .mk f m mo ch gs fr i => .mk f m mo (pruneForest minGames ch) gs fr i

/-- The `Object.keys(node.children).forEach` loop of `pruneTreeNodes`:
the key list is snapshotted before any delete, so this is a filter of
the child map in property order. -/
def pruneForest (minGames : Nat) : Forest → Forest
  | .nil => .nil
  | .cons k c r =>
      if c.frequency < minGames then pruneForest minGames r
      else .cons k (pruneTreeNodes minGames c) (pruneForest minGames r)

end

mutual

/-- The function `pruneTree(node, minGames)` (ChessTreeContext.js 275-297): the
copy-on-write pruner.  It shallow-copies the node and its child map and
edits only the copies, so its input is left intact; this is the value
it returns. -/
def pruneTreeCtx (minGames : Nat) : Node → Node
  | .mk f m mo ch gs fr i => .mk f m mo (pruneForestCtx minGames ch) gs fr i

/-- The child loop of the context pruner, acting on the copied map. -/
def pruneForestCtx (minGames : Nat) : Forest → Forest
  | .nil => .nil
  | .cons k c r =>
      if c.frequency < minGames then pruneForestCtx minGames r
      else .cons k (pruneTreeCtx minGames c) (pruneForestCtx minGames r)

end

/-- The function `buildVariationTree(games, maxDepth, minGames)` (treeUtils.js,
part_002 169-272): `null` for a missing or empty game list, otherwise
the fold of `buildStep` over the games followed by the in-place prune,
whose result is the returned root. -/
def buildVariationTree (games : Option (List Game)) (maxDepth minGames : Nat) :
    Option Node :=
  match games with
  | none => none
  | some gs =>
      if gs.length = 0 then none
      else some (pruneTreeNodes minGames (gs.foldl (buildStep maxDepth) (buildRoot, [])).1)

/-! ## The older treeUtils builder (part_001): no gameMap, no node ids,
root frequency preset to `games.length`. -/

/-- The inner move loop of part_001's `buildVariationTree` (lines
43-79): children carry no id, and the game summary is pushed
unconditionally at every visited node. -/
def insertV1 (g : GameSummary) : List Step → Node → Node
  | [], n => n
  | s :: rest, n =>
      let key := s.ply.moveKey
      let c0 := match n.children.lookup key with
        | some c => c
        | none => Node.mk s.fen s.ply.san (some s.ply) .nil [] 0 none
      let c1 := Node.pushGame (Node.bumpFreq c0) g
      let c2 := insertV1 g rest c1
      n.withChildren (n.children.upsert key c2)

/-- part_001's `buildVariationTree` (lines 5-89): root frequency is set
once to `games.length`, each accepted game pushes its summary at the
root (no dedup) and runs the move loop; the tree is pruned in place and
returned.  `null` for a missing or empty game list. -/
def buildVariationTreeV1 (games : Option (List Game)) (maxDepth minGames : Nat) :
    Option Node :=
  match games with
  | none => none
  | some gs =>
      if gs.length = 0 then none
      else
        let root := Node.mk initialFen "Initial Position" none .nil [] gs.length none
        let t := gs.foldl (fun t g =>
          match g.pgn with
          | some (some steps) =>
              insertV1 g.summary (steps.take maxDepth) (t.pushGame g.summary)
          | _ => t) root
        some (pruneTreeNodes minGames t)

/-! ## Merger (`mergeTrees`, treeUtils.js part_002 333-362) -/

mutual

/-- The function `mergeTrees(baseTree, newTree)` on two non-null trees: the result
starts as a deep copy of `base`; `newTree`'s games whose ids are absent
from the id set snapshotted from `base.games` are pushed at the root,
bumping the frequency once each (the snapshot is not updated, so
duplicate ids inside `newTree.games` are each pushed); then `newTree`'s
children are merged key by key.  There is no `maxDepth` check of any
kind. -/
def mergeNodes : Node → Node → Node
  | b, .mk _ _ _ dch dgs _ _ =>
      let existing := (Node.games b).map GameSummary.id
      let newOnes := dgs.filter (fun g => !(existing.contains g.id))
      let b1 := Node.mk (Node.fen b) (Node.mv b) (Node.moveObj b) (Node.children b)
        ((Node.games b) ++ newOnes) ((Node.frequency b) + newOnes.length) (Node.nid b)
      Node.withChildren b1 (mergeChildren (Node.children b1) dch)

/-- The `Object.keys(newTree.children).forEach` loop of `mergeTrees`:
keys only in `newTree` are copied verbatim (appended in `newTree`
order), keys present in both are merged recursively. -/
def mergeChildren : Forest → Forest → Forest
  | bf, .nil => bf
  | bf, .cons k c rest =>
      match bf.lookup k with
      | none => mergeChildren (bf.upsert k c) rest
      | some b => mergeChildren (bf.upsert k (mergeNodes b c)) rest

end

/-- The function `mergeTrees` including its null guards
(`if (!baseTree) return newTree; if (!newTree) return baseTree;`). -/
def mergeTrees : Option Node → Option Node → Option Node
  | none, newTree => newTree
  | some b, none => some b
  | some b, some d => some (mergeNodes b d)

/-! ## Persistence codec and invalidation policy (part_002 289-388) -/

/-- The metadata object.  Every field is optional: JS reads absent
properties as `undefined`.  `shouldRebuildTree` reads `gameCount`,
`maxDepth` and `minGames`; the codec writes `timestamp` and `version`;
the legacy path writes `isLegacyFormat`. -/
structure Metadata where
  gameCount : Option Nat := none
  maxDepth : Option Nat := none
  minGames : Option Nat := none
  timestamp : Option Nat := none
  version : Option String := none
  isLegacyFormat : Option Bool := none
deriving DecidableEq, Repr

/-- The JSON text stored in the tree slot, one level up from the
string: a modern `{tree, metadata}` payload, a legacy bare tree, or
text that does not parse.  `JSON.stringify`/`JSON.parse` round-trip
these shapes exactly, so the embedding works on the parsed shape. -/
inductive StoredPayload : Type where
  | modern (tree : Node) (metadata : Metadata) : StoredPayload
  | legacy (tree : Node) : StoredPayload
  | corrupt : StoredPayload

/-- The decoded result `{ tree, metadata }`. -/
structure DecodedTree where
  tree : Node
  metadata : Metadata

/-- The function `serializeTree(tree, metadata)` (part_002 290-300): wraps the tree
with `{...metadata, timestamp: Date.now(), version: '1.0'}` —
overwriting any timestamp or version the caller passed.  `now` is the
value of `Date.now()` at the call. -/
def serializeTree (tree : Node) (metadata : Metadata) (now : Nat) : StoredPayload :=
  .modern tree { metadata with timestamp := some now, version := some "1.0" }

/-- The function `deserializeTree(serializedData)` (part_002 303-330): `null` for a
falsy input or a parse failure; a payload with truthy `tree` and
`metadata` properties is returned as is (a `Node` and a metadata
object are always truthy); a legacy bare tree gets synthesized metadata
flagged `isLegacyFormat` with version `'0.9'`.  `now` is `Date.now()`
at the call. -/
def deserializeTree (input : Option StoredPayload) (now : Nat) : Option DecodedTree :=
  match input with
  | none => none
  | some .corrupt => none
  | some (.modern t m) => some ⟨t, m⟩
  | some (.legacy t) =>
      some ⟨t, { timestamp := some now, version := some "0.9",
                 isLegacyFormat := some true }⟩

/-- The function `shouldRebuildTree(metadata, currentGames, currentMaxDepth,
currentMinGames)` (part_002 365-388).  `metadata.gameCount || 0` reads a
missing count as 0; `undefined < n` and `undefined > n` are false in
JS, so a missing `maxDepth`/`minGames` contributes nothing to
`paramsChanged` (the incomplete-metadata check fires instead). -/
def shouldRebuildTree (metadata : Option Metadata) (currentGamesLen : Nat)
    (currentMaxDepth currentMinGames : Nat) : Bool :=
  match metadata with
  | none => true
  | some m =>
      let gameCountChanged := decide (0 < Nat.dist (m.gameCount.getD 0) currentGamesLen)
      let paramsChanged :=
        (match m.maxDepth with
         | some d => decide (d < currentMaxDepth)
         | none => false) ||
        (match m.minGames with
         | some g => decide (g > currentMinGames)
         | none => false)
      let isIncompleteMetadata :=
        m.gameCount.isNone || m.maxDepth.isNone || m.minGames.isNone
      gameCountChanged || paramsChanged || isIncompleteMetadata

/-- Modelled from the spec's words (§4.5): rebuild exactly when metadata
is absent or missing one of the three fields, or the recorded game
count differs in either direction from the current length, or the
recorded depth is smaller than requested, or the recorded threshold is
larger than requested. -/
def specShouldRebuild (metadata : Option Metadata) (currentGamesLen : Nat)
    (currentMaxDepth currentMinGames : Nat) : Bool :=
  match metadata with
  | none => true
  | some m =>
      match m.gameCount, m.maxDepth, m.minGames with
      | some c, some d, some g =>
          decide (c ≠ currentGamesLen) || decide (d < currentMaxDepth) ||
            decide (g > currentMinGames)
      | _, _, _ => true

/-! ## Parameter changes (`handleApplyParameters`, ChessTreeContext.js 388-436) -/

/-- What `handleApplyParameters` does after updating the two state
variables: nothing, a local re-prune of the published tree, or a full
background rebuild. -/
inductive ParamAction : Type where
  | noAction : ParamAction
  | repruneLocally : ParamAction
  | fullRebuild : ParamAction
deriving DecidableEq, Repr

/-- The branch structure of `handleApplyParameters(newMaxDepth,
newMinGames)` (ChessTreeContext.js 388-436): with no games, nothing
happens; with a published tree, `newMaxDepth <= maxDepth &&
newMinGames !== minGames` re-prunes the published (already pruned)
tree locally; otherwise a full rebuild is started. -/
def handleApplyParameters (gamesLen : Nat) (hasTree : Bool)
    (maxDepth minGames newMaxDepth newMinGames : Nat) : ParamAction :=
  if gamesLen = 0 then .noAction
  else if hasTree && decide (newMaxDepth ≤ maxDepth) && decide (newMinGames ≠ minGames)
    then .repruneLocally
  else .fullRebuild

/-! ## The chunked scheduler (`startTreeBuilding`, ChessTreeContext.js 299-386)

`startTreeBuilding` drives `processChunk` through `setTimeout`; each
invocation keeps its own closure state (`processedTreeCopy`,
`processed`) and on its last chunk prunes and publishes into the shared
`treeData`.  Starting a new build does not cancel pending callbacks of
an older one — the code has no generation token — so an interleaving is
a sequence of choices of which in-flight build runs its next chunk. -/

/-- The closure state of one `processChunk` chain. -/
structure BuildJob where
  games : List Game
  depth : Nat
  minGameCount : Nat
  tree : Node
  idx : Nat

/-- The chunk size (`const chunkSize = 10`). -/
def chunkSize : Nat := 10

/-- One execution of `processChunk(startIdx)`: process the next slice
through `incrementalBuildTree`; if games remain, schedule the next
chunk, else prune a copy and publish it as the final tree. -/
def runChunk (j : BuildJob) : BuildJob ⊕ Node :=
  let endIdx := min (j.idx + chunkSize) j.games.length
  let gamesChunk := (j.games.drop j.idx).take (endIdx - j.idx)
  let t := incrementalBuildTree j.tree gamesChunk j.depth
  if endIdx < j.games.length then .inl { j with tree := t, idx := endIdx }
  else .inr (pruneTreeCtx j.minGameCount t)

/-- The shared state: the published `treeData` and the pending
`processChunk` callbacks of every build still in flight, oldest first. -/
structure SchedState where
  treeData : Option Node
  jobs : List BuildJob

/-- Run the pending callback of the `i`-th in-flight build: a finished
build overwrites `treeData` with its pruned tree and disappears;
an unfinished one reschedules itself. -/
def schedStep (s : SchedState) (i : Nat) : SchedState :=
  match s.jobs[i]? with
  | none => s
  | some j =>
      match runChunk j with
      | .inl j2 => { s with jobs := s.jobs.set i j2 }
      | .inr t => { treeData := some t, jobs := s.jobs.eraseIdx i }

/-- Execute an interleaving: at each step the host's timer queue picks
which in-flight build runs its next chunk. -/
def runSched (s : SchedState) (schedule : List Nat) : SchedState :=
  schedule.foldl schedStep s

/-! ## Derived notions the properties are stated with -/

mutual

/-- Erase every frequency in a tree (set it to 0), keeping structure,
game lists and all other fields: two trees equal after `stripFreq`
agree on everything except frequencies. -/
def stripFreq : Node → Node
  | .mk f m mo ch gs _ i => .mk f m mo (stripFreqForest ch) gs 0 i

/-- The map `stripFreq` applied across a child map. -/
def stripFreqForest : Forest → Forest
  | .nil => .nil
  | .cons k c r => .cons k (stripFreq c) (stripFreqForest r)

end

mutual

/-- Spec §3 invariant 2, as a decidable check: every child's frequency
is at most its parent's, throughout the tree. -/
def freqInvariant : Node → Bool
  | .mk _ _ _ ch _ fr _ => freqInvariantForest fr ch

/-- The check `freqInvariant` for all trees of a child map, against the parent's
frequency. -/
def freqInvariantForest (parentFreq : Nat) : Forest → Bool
  | .nil => true
  | .cons _ c r =>
      decide (Node.frequency c ≤ parentFreq) && freqInvariant c &&
        freqInvariantForest parentFreq r

end

/-- The check `freqInvariant` lifted over the nullable build result. -/
def freqInvariantOpt : Option Node → Bool
  | none => true
  | some t => freqInvariant t

/-- The distinct elements of a list, keeping first occurrences not
already in `seen`; its length at `seen = []` is the number of distinct
elements. -/
def dedupKeepFirst (seen : List String) : List String → List String
  | [] => []
  | x :: r =>
      if seen.contains x then dedupKeepFirst seen r
      else x :: dedupKeepFirst (x :: seen) r

/-- The frequency of the child reached from `t` by the given move key,
if any — a projection used to tell concrete trees apart. -/
def childFrequencyAt (t : Node) (key : String) : Option Nat :=
  (t.children.lookup key).map Node.frequency

/-- The id list of the games attached at the root of a tree. -/
def rootGameIds (t : Node) : List String :=
  t.games.map GameSummary.id

/-- A game id is threaded along a ply path of a tree: at every step the
child for the move key exists and carries the id in its game list. -/
def pathHasGame (gid : String) : List Step → Node → Prop
  | [], _ => True
  | s :: rest, n =>
      match n.children.lookup s.ply.moveKey with
      | none => False
      | some c => gid ∈ c.games.map GameSummary.id ∧ pathHasGame gid rest c

/-- A game is fully recorded in a tree as `incrementalBuildTree` leaves
it: skipped games vacuously, accepted games at the root's game list and
along their truncated ply path. -/
def gameRecorded (maxDepth : Nat) (g : Game) (t : Node) : Prop :=
  match g.pgn with
  | some (some steps) =>
      g.id ∈ t.games.map GameSummary.id ∧ pathHasGame g.id (steps.take maxDepth) t
  | _ => True

/-! ## Concrete data used to exercise the definitions -/

/-- Decidable form of "the game's pgn is present and parses". -/
def hasParsedPgn (g : Game) : Bool :=
  match g.pgn with
  | some (some _) => true
  | _ => false

/-- The ply 1.e4. -/
def plyE4 : Ply := ⟨"e2", "e4", none, "e4", "w"⟩

/-- The reply 1...e5. -/
def plyE5 : Ply := ⟨"e7", "e5", none, "e5", "b"⟩

/-- Replay step for 1.e4. -/
def stepE4 : Step := ⟨plyE4, "fen-after-e4"⟩

/-- Replay step for 1...e5. -/
def stepE5 : Step := ⟨plyE5, "fen-after-e5"⟩

/-- A one-ply game with id `g1`. -/
def gameOne : Game :=
  ⟨"g1", "wa", "ba", "1-0", "2024-01-01", "u1", none, none, some (some [stepE4])⟩

/-- A different game record that reuses the id `g1`. -/
def gameOneDup : Game :=
  ⟨"g1", "wb", "bb", "0-1", "2024-01-02", "u2", none, none, some (some [stepE4])⟩

/-- A two-ply game with id `g2`. -/
def gameTwo : Game :=
  ⟨"g2", "wc", "bc", "1-0", "2024-01-03", "u3", none, none,
    some (some [stepE4, stepE5])⟩

/-- The context root for the single game `gameOne`. -/
def ctxRootOne : Node := ctxInitialTree [gameOne]

/-- The game `gameOne` extended once into its initial tree. -/
def extendedOnce : Node := incrementalBuildTree ctxRootOne [gameOne] 5

/-- The game `gameOne` extended a second time with the same game list. -/
def extendedTwice : Node := incrementalBuildTree extendedOnce [gameOne] 5

/-- A tree whose root (frequency 5) has one child of frequency 1,
below the threshold 2 used against it. -/
def lowSupportTree : Node :=
  Node.mk "f0" "Initial Position" none
    (.cons "e2e4" (Node.mk "f1" "e4" none .nil [] 1 none) .nil) [] 5 none

/-- A metadata record carrying version `0.9` and timestamp 0. -/
def legacyVersionMeta : Metadata :=
  ⟨some 1, some 2, some 3, some 0, some "0.9", none⟩

/-- The pending chunk callback of the first (superseded) build. -/
def staleJob : BuildJob := ⟨[gameOne], 5, 1, ctxInitialTree [gameOne], 0⟩

/-- The pending chunk callback of the newer build. -/
def freshJob : BuildJob := ⟨[gameTwo], 5, 1, ctxInitialTree [gameTwo], 0⟩

/-- Shared state after the newer build started while the first was
still in flight: nothing published yet, both callbacks pending. -/
def racedState : SchedState := ⟨none, [staleJob, freshJob]⟩

/-! ## Basic lemmas about node edits and child maps -/

@[simp] theorem Node.games_withChildren (n : Node) (f : Forest) :
    (n.withChildren f).games = n.games := by cases n; rfl

@[simp] theorem Node.frequency_withChildren (n : Node) (f : Forest) :
    (n.withChildren f).frequency = n.frequency := by cases n; rfl

@[simp] theorem Node.children_withChildren (n : Node) (f : Forest) :
    (n.withChildren f).children = f := by cases n; rfl

@[simp] theorem Node.nid_withChildren (n : Node) (f : Forest) :
    (n.withChildren f).nid = n.nid := by cases n; rfl

@[simp] theorem Node.fen_withChildren (n : Node) (f : Forest) :
    (n.withChildren f).fen = n.fen := by cases n; rfl

@[simp] theorem Node.mv_withChildren (n : Node) (f : Forest) :
    (n.withChildren f).mv = n.mv := by cases n; rfl

@[simp] theorem Node.moveObj_withChildren (n : Node) (f : Forest) :
    (n.withChildren f).moveObj = n.moveObj := by cases n; rfl

@[simp] theorem Node.withChildren_children (n : Node) :
    n.withChildren n.children = n := by cases n; rfl

@[simp] theorem Node.games_bumpFreq (n : Node) : n.bumpFreq.games = n.games := by
  cases n; rfl

@[simp] theorem Node.children_bumpFreq (n : Node) :
    n.bumpFreq.children = n.children := by cases n; rfl

@[simp] theorem Node.frequency_bumpFreq (n : Node) :
    n.bumpFreq.frequency = n.frequency + 1 := by cases n; rfl

@[simp] theorem Node.games_pushGame (n : Node) (g : GameSummary) :
    (n.pushGame g).games = n.games ++ [g] := by cases n; rfl

@[simp] theorem Node.children_pushGame (n : Node) (g : GameSummary) :
    (n.pushGame g).children = n.children := by cases n; rfl

@[simp] theorem Node.frequency_pushGame (n : Node) (g : GameSummary) :
    (n.pushGame g).frequency = n.frequency := by cases n; rfl

@[simp] theorem Node.children_addGameDedup (n : Node) (g : GameSummary) :
    (n.addGameDedup g).children = n.children := by
  unfold Node.addGameDedup; split <;> simp

@[simp] theorem Node.frequency_addGameDedup (n : Node) (g : GameSummary) :
    (n.addGameDedup g).frequency = n.frequency := by
  unfold Node.addGameDedup; split <;> simp

theorem Node.mem_ids_addGameDedup (n : Node) (g : GameSummary) :
    g.id ∈ (n.addGameDedup g).games.map GameSummary.id := by
  unfold Node.addGameDedup
  split
  next h => simpa using h
  next h => simp

theorem Node.ids_mono_addGameDedup (n : Node) (g : GameSummary) (x : String)
    (hx : x ∈ n.games.map GameSummary.id) :
    x ∈ (n.addGameDedup g).games.map GameSummary.id := by
  unfold Node.addGameDedup
  split
  · exact hx
  · simp only [Node.games_pushGame, List.map_append, List.mem_append]
    exact Or.inl hx

theorem Node.addGameDedup_of_mem (n : Node) (g : GameSummary)
    (h : g.id ∈ n.games.map GameSummary.id) : n.addGameDedup g = n := by
  unfold Node.addGameDedup
  rw [if_pos]
  simpa using h

theorem Forest.lookup_upsert : ∀ (f : Forest) (k key : String) (n : Node),
    (f.upsert k n).lookup key = if k = key then some n else f.lookup key
  | .nil, k, key, n => by
      by_cases h : k = key <;> simp [Forest.upsert, Forest.lookup, h]
  | .cons k2 c r, k, key, n => by
      by_cases h2 : k2 = k
      · subst h2
        by_cases h : k2 = key <;> simp [Forest.upsert, Forest.lookup, h]
      · have hkk : ¬ k = k2 := fun hh => h2 hh.symm
        by_cases h : k2 = key
        · subst h
          simp [Forest.upsert, if_neg h2, Forest.lookup, hkk]
        · simp [Forest.upsert, if_neg h2, Forest.lookup, h,
            Forest.lookup_upsert r k key n]

/-! ## The insert loops leave the node they start from untouched except
for its child map -/

theorem insertCtx_games (g : GameSummary) (ss : List Step) (n : Node) :
    (insertCtx g ss n).games = n.games := by
  cases ss <;> simp [insertCtx]

theorem insertCtx_frequency (g : GameSummary) (ss : List Step) (n : Node) :
    (insertCtx g ss n).frequency = n.frequency := by
  cases ss <;> simp [insertCtx]

theorem insertB_games (g : GameSummary) (ss : List Step) (n : Node) :
    (insertB g ss n).games = n.games := by
  cases ss <;> simp [insertB]

theorem insertB_frequency (g : GameSummary) (ss : List Step) (n : Node) :
    (insertB g ss n).frequency = n.frequency := by
  cases ss <;> simp [insertB]

theorem insertV1_games (g : GameSummary) (ss : List Step) (n : Node) :
    (insertV1 g ss n).games = n.games := by
  cases ss <;> simp [insertV1]

theorem insertV1_frequency (g : GameSummary) (ss : List Step) (n : Node) :
    (insertV1 g ss n).frequency = n.frequency := by
  cases ss <;> simp [insertV1]

theorem processGameCtx_frequency (d : Nat) (t : Node) (g : Game) :
    (processGameCtx d t g).frequency = t.frequency := by
  unfold processGameCtx
  split <;> simp [insertCtx_frequency]

theorem incrementalBuildTree_frequency (t : Node) (G : List Game) (d : Nat) :
    (incrementalBuildTree t G d).frequency = t.frequency := by
  induction G generalizing t with
  | nil => rfl
  | cons g G ih =>
      show (incrementalBuildTree (processGameCtx d t g) G d).frequency = _
      rw [ih, processGameCtx_frequency]

/-! ## Game paths through a tree -/

theorem pathHasGame_nil (gid : String) (n : Node) : pathHasGame gid [] n := by
  trivial

theorem pathHasGame_cons_of (gid : String) (s : Step) (rest : List Step)
    (n c : Node) (hl : n.children.lookup s.ply.moveKey = some c)
    (hmem : gid ∈ c.games.map GameSummary.id) (hrest : pathHasGame gid rest c) :
    pathHasGame gid (s :: rest) n := by
  show (match n.children.lookup s.ply.moveKey with
    | none => False
    | some c => gid ∈ c.games.map GameSummary.id ∧ pathHasGame gid rest c)
  rw [hl]
  exact ⟨hmem, hrest⟩

theorem pathHasGame_cons_elim (gid : String) (s : Step) (rest : List Step)
    (n : Node) (hp : pathHasGame gid (s :: rest) n) :
    ∃ c, n.children.lookup s.ply.moveKey = some c ∧
      gid ∈ c.games.map GameSummary.id ∧ pathHasGame gid rest c := by
  have hp2 : (match n.children.lookup s.ply.moveKey with
    | none => False
    | some c => gid ∈ c.games.map GameSummary.id ∧ pathHasGame gid rest c) := hp
  cases hl : n.children.lookup s.ply.moveKey with
  | none => rw [hl] at hp2; exact hp2.elim
  | some c =>
      rw [hl] at hp2
      exact ⟨c, rfl, hp2.1, hp2.2⟩

theorem pathHasGame_congr (gid : String) (ss : List Step) (n n2 : Node)
    (h : n2.children = n.children) (hp : pathHasGame gid ss n) :
    pathHasGame gid ss n2 := by
  cases ss with
  | nil => trivial
  | cons s rest =>
      obtain ⟨c, hl, hmem, hrest⟩ := pathHasGame_cons_elim gid s rest n hp
      exact pathHasGame_cons_of gid s rest n2 c (by rw [h]; exact hl) hmem hrest

theorem pathHasGame_insertCtx (g : GameSummary) (gid : String) (ss : List Step) :
    ∀ (ss2 : List Step) (n : Node), pathHasGame gid ss n →
      pathHasGame gid ss (insertCtx g ss2 n) := by
  induction ss with
  | nil => intro ss2 n _; trivial
  | cons s rest ih =>
      intro ss2 n hp
      cases ss2 with
      | nil => exact hp
      | cons s2 rest2 =>
          obtain ⟨c, hl, hmem, hrest⟩ := pathHasGame_cons_elim gid s rest n hp
          by_cases hk : s2.ply.moveKey = s.ply.moveKey
          · have hl0 : n.children.lookup s2.ply.moveKey = some c := by
              rw [hk]; exact hl
            refine pathHasGame_cons_of gid s rest _
              (insertCtx g rest2 (Node.addGameDedup (Node.bumpFreq c) g))
              ?_ ?_ ?_
            · simp only [insertCtx, hl0, Node.children_withChildren,
                Forest.lookup_upsert, if_pos hk]
            · rw [insertCtx_games]
              apply Node.ids_mono_addGameDedup
              simpa using hmem
            · exact ih rest2 _
                (pathHasGame_congr gid rest c _ (by simp) hrest)
          · refine pathHasGame_cons_of gid s rest _ c ?_ hmem hrest
            simp only [insertCtx, Node.children_withChildren,
              Forest.lookup_upsert, if_neg hk]
            exact hl

theorem pathHasGame_insertCtx_self (g : GameSummary) (ss : List Step) :
    ∀ (n : Node), pathHasGame g.id ss (insertCtx g ss n) := by
  induction ss with
  | nil => intro n; trivial
  | cons s rest ih =>
      intro n
      cases hl : n.children.lookup s.ply.moveKey with
      | none =>
          refine pathHasGame_cons_of g.id s rest _
            (insertCtx g rest (Node.addGameDedup (Node.bumpFreq
              (Node.mk s.fen s.ply.san (some s.ply) .nil [] 0 none)) g))
            ?_ ?_ ?_
          · simp only [insertCtx, hl, Node.children_withChildren,
              Forest.lookup_upsert]
            simp
          · rw [insertCtx_games]
            exact Node.mem_ids_addGameDedup _ g
          · exact ih _
      | some c =>
          refine pathHasGame_cons_of g.id s rest _
            (insertCtx g rest (Node.addGameDedup (Node.bumpFreq c) g))
            ?_ ?_ ?_
          · simp only [insertCtx, hl, Node.children_withChildren,
              Forest.lookup_upsert]
            simp
          · rw [insertCtx_games]
            exact Node.mem_ids_addGameDedup _ g
          · exact ih _

/-! ## Frequency erasure -/

theorem stripFreq_withChildren (n : Node) (f : Forest) :
    stripFreq (n.withChildren f) = (stripFreq n).withChildren (stripFreqForest f) := by
  cases n; rfl

theorem children_stripFreq (n : Node) :
    (stripFreq n).children = stripFreqForest n.children := by
  cases n; rfl

theorem stripFreq_bumpFreq (n : Node) : stripFreq n.bumpFreq = stripFreq n := by
  cases n; rfl

theorem stripFreqForest_upsert_congr :
    ∀ (f : Forest) (key : String) (c c2 : Node),
      f.lookup key = some c → stripFreq c2 = stripFreq c →
      stripFreqForest (f.upsert key c2) = stripFreqForest f
  | .nil, key, c, c2, hl, _ => by simp [Forest.lookup] at hl
  | .cons k child r, key, c, c2, hl, hs => by
      by_cases hk : k = key
      · subst hk
        have hcc : child = c := by simpa [Forest.lookup] using hl
        subst hcc
        simp [Forest.upsert, stripFreqForest, hs]
      · simp only [Forest.lookup, if_neg hk] at hl
        simp [Forest.upsert, if_neg hk, stripFreqForest,
          stripFreqForest_upsert_congr r key c c2 hl hs]

theorem stripFreq_insertCtx_of_path (g : GameSummary) (ss : List Step) :
    ∀ (n : Node), pathHasGame g.id ss n →
      stripFreq (insertCtx g ss n) = stripFreq n := by
  induction ss with
  | nil => intro n _; rfl
  | cons s rest ih =>
      intro n hp
      obtain ⟨c, hl, hmem, hrest⟩ := pathHasGame_cons_elim _ s rest n hp
      have haddG : Node.addGameDedup (Node.bumpFreq c) g = Node.bumpFreq c :=
        Node.addGameDedup_of_mem _ _ (by simpa using hmem)
      have hstep : stripFreq (insertCtx g rest (Node.bumpFreq c)) = stripFreq c := by
        rw [ih _ (pathHasGame_congr _ rest c _ (by simp) hrest),
          stripFreq_bumpFreq]
      simp only [insertCtx, hl, haddG]
      rw [stripFreq_withChildren,
        stripFreqForest_upsert_congr _ _ _ _ hl hstep,
        ← children_stripFreq, Node.withChildren_children]

/-! ## Accepted games are recorded in the tree, and recording is stable -/

theorem gameRecorded_processGameCtx_self (d : Nat) (t : Node) (g : Game) :
    gameRecorded d g (processGameCtx d t g) := by
  unfold gameRecorded processGameCtx
  cases hpg : g.pgn with
  | none => trivial
  | some parsed =>
      cases parsed with
      | none => trivial
      | some steps =>
          refine ⟨?_, ?_⟩
          · rw [insertCtx_games]
            exact Node.mem_ids_addGameDedup _ _
          · exact pathHasGame_insertCtx_self g.summary (steps.take d) _

theorem gameRecorded_processGameCtx_mono (d : Nat) (t : Node) (g g2 : Game)
    (h : gameRecorded d g t) : gameRecorded d g (processGameCtx d t g2) := by
  unfold gameRecorded at h ⊢
  cases hpg : g.pgn with
  | none => trivial
  | some parsed =>
      cases parsed with
      | none => trivial
      | some steps =>
          rw [hpg] at h
          obtain ⟨hroot, hpath⟩ := h
          unfold processGameCtx
          cases hpg2 : g2.pgn with
          | none => exact ⟨hroot, hpath⟩
          | some parsed2 =>
              cases parsed2 with
              | none => exact ⟨hroot, hpath⟩
              | some steps2 =>
                  refine ⟨?_, ?_⟩
                  · rw [insertCtx_games]
                    exact Node.ids_mono_addGameDedup _ _ _ hroot
                  · exact pathHasGame_insertCtx _ _ _ _ _
                      (pathHasGame_congr _ _ t _ (by simp) hpath)

theorem gameRecorded_fold_mono (d : Nat) (g : Game) :
    ∀ (G : List Game) (t : Node), gameRecorded d g t →
      gameRecorded d g (incrementalBuildTree t G d)
  | [], _, h => h
  | g2 :: G, t, h =>
      gameRecorded_fold_mono d g G (processGameCtx d t g2)
        (gameRecorded_processGameCtx_mono d t g g2 h)

theorem gameRecorded_of_mem (d : Nat) :
    ∀ (G : List Game) (t : Node) (g : Game), g ∈ G →
      gameRecorded d g (incrementalBuildTree t G d) := by
  intro G
  induction G with
  | nil => intro t g hg; cases hg
  | cons g2 G ih =>
      intro t g hg
      cases hg with
      | head =>
          exact gameRecorded_fold_mono d g2 G _
            (gameRecorded_processGameCtx_self d t g2)
      | tail _ hg2 => exact ih _ _ hg2

/-! ## A second pass with already-recorded games changes only frequencies -/

theorem stripFreq_processGameCtx_of_recorded (d : Nat) (t : Node) (g : Game)
    (h : gameRecorded d g t) : stripFreq (processGameCtx d t g) = stripFreq t := by
  unfold gameRecorded at h
  unfold processGameCtx
  cases hpg : g.pgn with
  | none => rfl
  | some parsed =>
      cases parsed with
      | none => rfl
      | some steps =>
          rw [hpg] at h
          obtain ⟨hroot, hpath⟩ := h
          have haddG : t.addGameDedup g.summary = t :=
            Node.addGameDedup_of_mem _ _ hroot
          rw [haddG]
          exact stripFreq_insertCtx_of_path g.summary (steps.take d) t hpath

theorem stripFreq_fold_of_recorded (d : Nat) :
    ∀ (G : List Game) (t : Node), (∀ g ∈ G, gameRecorded d g t) →
      stripFreq (incrementalBuildTree t G d) = stripFreq t
  | [], t, _ => rfl
  | g :: G, t, h => by
      have h1 : stripFreq (processGameCtx d t g) = stripFreq t :=
        stripFreq_processGameCtx_of_recorded d t g (h g (List.mem_cons_self g G))
      have h2 : ∀ g2 ∈ G, gameRecorded d g2 (processGameCtx d t g) :=
        fun g2 hg2 => gameRecorded_processGameCtx_mono d t g2 g
          (h g2 (List.mem_cons_of_mem g hg2))
      show stripFreq (incrementalBuildTree (processGameCtx d t g) G d) = stripFreq t
      rw [stripFreq_fold_of_recorded d G _ h2, h1]

/-! ## Claim C1 -/

/-- Claim C1, counterexample.  The claim states that
`extend(extend(T, G), G) == extend(T, G)` and in particular that
re-adding a game whose id is already present at a node changes neither
that node's game list nor its frequency.  On the code this is false:
`incrementalBuildTree` increments `currentNode.frequency`
unconditionally (ChessTreeContext.js 248) and only deduplicates the
game list, so re-extending the one-game tree with the same game bumps
the `e2e4` child's frequency from 1 to 2 and the two trees differ. -/
theorem extend_not_idempotent_on_frequencies :
    childFrequencyAt extendedOnce "e2e4" = some 1 ∧
    childFrequencyAt extendedTwice "e2e4" = some 2 ∧
    extendedTwice ≠ extendedOnce := by
  refine ⟨by decide, by decide, fun h => ?_⟩
  have h2 := congrArg (fun t => childFrequencyAt t "e2e4") h
  simp only at h2
  rw [show childFrequencyAt extendedTwice "e2e4" = some 2 from by decide,
    show childFrequencyAt extendedOnce "e2e4" = some 1 from by decide] at h2
  cases h2

/-- Claim C1, amended.  Extending twice with the same game list is
idempotent up to frequencies: after erasing every frequency the two
trees are equal — same node structure, same game lists at every node,
all other fields identical — because the second pass finds every game
id already present at every node on its path and `addGameDedup` is then
a no-op; only the unconditional frequency increments differ. -/
theorem extend_extend_strip_eq (T : Node) (G : List Game) (d : Nat) :
    stripFreq (incrementalBuildTree (incrementalBuildTree T G d) G d) =
      stripFreq (incrementalBuildTree T G d) :=
  stripFreq_fold_of_recorded d G (incrementalBuildTree T G d)
    (fun g hg => gameRecorded_of_mem d G T g hg)

/-! ## Claim C9 -/

mutual

theorem pruneTreeCtx_eq_pruneTreeNodes :
    ∀ (m : Nat) (n : Node), pruneTreeCtx m n = pruneTreeNodes m n
  | m, .mk f mv mo ch gs fr i => by
      simp only [pruneTreeCtx, pruneTreeNodes]
      rw [pruneForestCtx_eq_pruneForest m ch]

theorem pruneForestCtx_eq_pruneForest :
    ∀ (m : Nat) (ch : Forest), pruneForestCtx m ch = pruneForest m ch
  | _, .nil => rfl
  | m, .cons k c r => by
      simp only [pruneForestCtx, pruneForest]
      rw [pruneTreeCtx_eq_pruneTreeNodes m c, pruneForestCtx_eq_pruneForest m r]

end

theorem pruneTreeNodes_fen (m : Nat) (n : Node) :
    (pruneTreeNodes m n).fen = n.fen := by cases n; rfl

theorem pruneTreeNodes_games (m : Nat) (n : Node) :
    (pruneTreeNodes m n).games = n.games := by cases n; rfl

theorem pruneTreeNodes_frequency (m : Nat) (n : Node) :
    (pruneTreeNodes m n).frequency = n.frequency := by cases n; rfl

/-- Claim C9, counterexample.  The claim states that pruning is
pure/copy-on-write: the input tree is left unchanged.  That is true of
the context's `pruneTree`, but `pruneTreeNodes` (treeUtils.js) prunes
in place — `delete node.children[key]` mutates the node it was given —
so after the call the input tree IS the pruned tree: its low-support
`e2e4` child (frequency 1 < 2) is gone, and the tree no longer equals
the original, so it cannot be re-pruned later at a lower threshold. -/
theorem pruneTreeNodes_mutates_input :
    childFrequencyAt lowSupportTree "e2e4" = some 1 ∧
    childFrequencyAt (pruneTreeNodes 2 lowSupportTree) "e2e4" = none ∧
    pruneTreeNodes 2 lowSupportTree ≠ lowSupportTree := by
  refine ⟨by decide, by decide, fun h => ?_⟩
  have h2 := congrArg (fun t => childFrequencyAt t "e2e4") h
  simp only at h2
  rw [show childFrequencyAt (pruneTreeNodes 2 lowSupportTree) "e2e4" = none from
    by decide,
    show childFrequencyAt lowSupportTree "e2e4" = some 1 from by decide] at h2
  cases h2

/-- Claim C9, amended.  Neither pruner ever removes the node it is
given: the root survives with its `fen`, game list and frequency
intact, only the child map is filtered.  The context's `pruneTree`
builds its result out of copies, leaving the input intact, and its
result coincides with `pruneTreeNodes`; `pruneTreeNodes` however prunes
in place, so its input does not survive (see the counterexample). -/
theorem prune_preserves_root_and_pruners_agree (m : Nat) (n : Node) :
    pruneTreeCtx m n = pruneTreeNodes m n ∧
    (pruneTreeNodes m n).fen = n.fen ∧
    (pruneTreeNodes m n).games = n.games ∧
    (pruneTreeNodes m n).frequency = n.frequency :=
  ⟨pruneTreeCtx_eq_pruneTreeNodes m n, pruneTreeNodes_fen m n,
    pruneTreeNodes_games m n, pruneTreeNodes_frequency m n⟩

@[simp] theorem Node.games_mk (f m : String) (mo : Option Ply) (ch : Forest)
    (gs : List GameSummary) (fr : Nat) (i : Option String) :
    (Node.mk f m mo ch gs fr i).games = gs := rfl

@[simp] theorem Node.frequency_mk (f m : String) (mo : Option Ply) (ch : Forest)
    (gs : List GameSummary) (fr : Nat) (i : Option String) :
    (Node.mk f m mo ch gs fr i).frequency = fr := rfl

@[simp] theorem Node.children_mk (f m : String) (mo : Option Ply) (ch : Forest)
    (gs : List GameSummary) (fr : Nat) (i : Option String) :
    (Node.mk f m mo ch gs fr i).children = ch := rfl

@[simp] theorem Node.nid_mk (f m : String) (mo : Option Ply) (ch : Forest)
    (gs : List GameSummary) (fr : Nat) (i : Option String) :
    (Node.mk f m mo ch gs fr i).nid = i := rfl

/-! ## Claim C3 -/

/-- Claim C3, counterexample.  The claim states that merging trees built
with different `maxDepth` values is rejected with a
`ParameterConflictError` rather than silently combined.  `mergeTrees`
(treeUtils.js, part_002 333-362) has no error path and no knowledge of
`maxDepth` at all: merging the tree built from `gameTwo` at depth 1
with the tree built from `gameOne` at depth 2 returns a silently
combined tree carrying both games at the root with frequency 2. -/
theorem mergeTrees_silently_combines_depth_mismatch :
    (mergeTrees (buildVariationTree (some [gameTwo]) 1 1)
      (buildVariationTree (some [gameOne]) 2 1)).map rootGameIds =
        some ["g2", "g1"] ∧
    (mergeTrees (buildVariationTree (some [gameTwo]) 1 1)
      (buildVariationTree (some [gameOne]) 2 1)).map Node.frequency = some 2 := by
  exact ⟨by decide, by decide⟩

/-- Claim C3, amended.  `mergeTrees` never rejects: for every pair of
non-null trees it returns the combined tree, whatever parameters the
inputs were built with — the root game lists are unioned by id (ids
snapshotted from the base before the loop), the root frequency grows by
the number of delta games admitted, and children are merged key by
key.  No `ParameterConflictError` (or any error) exists in the code. -/
theorem mergeTrees_total_union (b d : Node) :
    mergeTrees (some b) (some d) = some (mergeNodes b d) ∧
    (mergeNodes b d).games =
      b.games ++ d.games.filter
        (fun g => !((b.games.map GameSummary.id).contains g.id)) ∧
    (mergeNodes b d).frequency =
      b.frequency + (d.games.filter
        (fun g => !((b.games.map GameSummary.id).contains g.id))).length := by
  refine ⟨rfl, ?_, ?_⟩ <;>
    cases d <;>
      simp [mergeNodes, Node.games_mk, Node.frequency_mk]

/-! ## Claim C5 -/

/-- Claim C5, counterexample.  The claim states
`decode(encode(T, M)) == (T, M)` for every tree and metadata.  But
`serializeTree` overwrites the metadata with
`timestamp: Date.now(), version: '1.0'` before writing, so a metadata
record carrying version `0.9` does not round-trip: the decoded version
is `1.0`. -/
theorem serialize_roundtrip_fails_on_metadata :
    (deserializeTree (some (serializeTree lowSupportTree legacyVersionMeta 5)) 5).map
        (fun r => r.metadata) = some
        { legacyVersionMeta with timestamp := some 5, version := some "1.0" } ∧
    deserializeTree (some (serializeTree lowSupportTree legacyVersionMeta 5)) 5 ≠
      some ⟨lowSupportTree, legacyVersionMeta⟩ := by
  refine ⟨by decide, fun h => ?_⟩
  have h2 := congrArg (Option.map (fun r => DecodedTree.metadata r)) h
  rw [show (deserializeTree (some (serializeTree lowSupportTree
      legacyVersionMeta 5)) 5).map (fun r => DecodedTree.metadata r) = some
      { legacyVersionMeta with timestamp := some 5, version := some "1.0" } from
    by decide] at h2
  simp only [Option.map_some] at h2
  exact absurd h2 (by decide)

/-- Claim C5, amended.  Decoding the encoded payload returns the same
tree, and the metadata with its `timestamp` overwritten to the encoding
time and its `version` overwritten to `"1.0"`; every other metadata
field round-trips unchanged.  In particular the claim as stated holds
only when the input metadata already carries version `"1.0"` and the
encoding-time timestamp. -/
theorem serialize_deserialize_roundtrip (t : Node) (m : Metadata) (now later : Nat) :
    deserializeTree (some (serializeTree t m now)) later =
      some ⟨t, { m with timestamp := some now, version := some "1.0" }⟩ := rfl

/-! ## Claim C6 -/

/-- Claim C6, confirmed.  `shouldRebuildTree` returns true exactly when
metadata is absent or missing any of `gameCount`/`maxDepth`/`minGames`,
or the recorded `gameCount` differs in either direction from the
current length, or the recorded `maxDepth` is smaller than requested,
or the recorded `minGames` is larger than requested; with complete
metadata, matching count, `maxDepth` at least requested and `minGames`
at most requested, it returns false — `specShouldRebuild` is that very
case split, transcribed from the claim. -/
theorem shouldRebuildTree_matches_policy (md : Option Metadata)
    (len maxDepth minGames : Nat) :
    shouldRebuildTree md len maxDepth minGames =
      specShouldRebuild md len maxDepth minGames := by
  cases md with
  | none => rfl
  | some m =>
      obtain ⟨gc, mxd, mng, ts, v, lf⟩ := m
      have hgc : ∀ a : Nat, decide (0 < Nat.dist a len) = decide (a ≠ len) := by
        intro a
        rw [decide_eq_decide]
        unfold Nat.dist
        omega
      cases gc <;> cases mxd <;> cases mng <;>
        simp [shouldRebuildTree, specShouldRebuild, hgc, Bool.or_assoc]

/-! ## Claim C10 -/

/-- Claim C10, confirmed.  Both versions of `buildVariationTree`
(part_002 and part_001) return `null` exactly when the game list is
missing (`null`/`undefined`) or empty — for a non-empty list they
always return a root —, so callers must handle a null tree. -/
theorem buildVariationTree_none_iff (games : Option (List Game))
    (maxDepth minGames : Nat) :
    (buildVariationTree games maxDepth minGames = none ↔
      games = none ∨ games = some []) ∧
    (buildVariationTreeV1 games maxDepth minGames = none ↔
      games = none ∨ games = some []) := by
  cases games with
  | none => simp [buildVariationTree, buildVariationTreeV1]
  | some gs =>
      cases gs with
      | nil => simp [buildVariationTree, buildVariationTreeV1]
      | cons g rest => simp [buildVariationTree, buildVariationTreeV1]

/-! ## Claim C4 -/

/-- Claim C4: the code diverges from it (code bug).  The claim (and
spec sections 4.5 and 5) say a `minGames` decrease must trigger a full
rebuild, because branches pruned from the published tree cannot be
recovered by re-pruning.  `handleApplyParameters`
(ChessTreeContext.js 395) only checks
`newMaxDepth <= maxDepth && newMinGames !== minGames`, so lowering the
threshold from 15 to 5 at unchanged depth re-prunes the already-pruned
tree locally, leaving every branch with support in [5, 15) missing. -/
theorem applyParameters_repruned_on_threshold_decrease :
    handleApplyParameters 1 true 20 15 20 5 = ParamAction.repruneLocally := by
  decide

/-! ## The parent-child frequency invariant -/

theorem freqInvariant_unfold (n : Node) :
    freqInvariant n = freqInvariantForest n.frequency n.children := by
  cases n; rfl

theorem freqInvariant_withChildren (n : Node) (f : Forest) :
    freqInvariant (n.withChildren f) = freqInvariantForest n.frequency f := by
  cases n; rfl

theorem freqInvariantForest_lookup :
    ∀ (f : Forest) (pf : Nat) (k : String) (c : Node),
      freqInvariantForest pf f = true → f.lookup k = some c →
      c.frequency ≤ pf ∧ freqInvariant c = true
  | .nil, _, _, _, _, hl => by simp [Forest.lookup] at hl
  | .cons k2 c2 r, pf, k, c, hinv, hl => by
      simp only [freqInvariantForest, Bool.and_eq_true, decide_eq_true_eq] at hinv
      obtain ⟨⟨hle, hc2⟩, hr⟩ := hinv
      by_cases hk : k2 = k
      · have hcc : c2 = c := by simpa [Forest.lookup, hk] using hl
        subst hcc
        exact ⟨hle, hc2⟩
      · have hl2 : r.lookup k = some c := by simpa [Forest.lookup, hk] using hl
        exact freqInvariantForest_lookup r pf k c hr hl2

theorem freqInvariantForest_upsert :
    ∀ (f : Forest) (pf : Nat) (k : String) (c : Node),
      freqInvariantForest pf f = true → c.frequency ≤ pf →
      freqInvariant c = true → freqInvariantForest pf (f.upsert k c) = true
  | .nil, pf, k, c, _, hle, hc => by
      simp [Forest.upsert, freqInvariantForest, hle, hc]
  | .cons k2 c2 r, pf, k, c, hinv, hle, hc => by
      simp only [freqInvariantForest, Bool.and_eq_true, decide_eq_true_eq] at hinv
      obtain ⟨⟨hle2, hc2⟩, hr⟩ := hinv
      by_cases hk : k2 = k
      · simp [Forest.upsert, hk, freqInvariantForest, hle, hc, hr]
      · simp only [Forest.upsert, if_neg hk, freqInvariantForest,
          Bool.and_eq_true, decide_eq_true_eq]
        exact ⟨⟨hle2, hc2⟩, freqInvariantForest_upsert r pf k c hr hle hc⟩

theorem freqInvariantForest_mono :
    ∀ (f : Forest) (pf pf2 : Nat), pf ≤ pf2 →
      freqInvariantForest pf f = true → freqInvariantForest pf2 f = true
  | .nil, _, _, _, _ => rfl
  | .cons k c r, pf, pf2, hp, hinv => by
      simp only [freqInvariantForest, Bool.and_eq_true, decide_eq_true_eq] at hinv ⊢
      obtain ⟨⟨hle, hc⟩, hr⟩ := hinv
      exact ⟨⟨le_trans hle hp, hc⟩, freqInvariantForest_mono r pf pf2 hp hr⟩

theorem insertB_inv (g : GameSummary) : ∀ (ss : List Step) (n : Node),
    freqInvariant n = true → 1 ≤ n.frequency →
    (∀ k c, n.children.lookup k = some c → c.frequency < n.frequency) →
    freqInvariant (insertB g ss n) = true := by
  intro ss
  induction ss with
  | nil => intro n h _ _; exact h
  | cons s rest ih =>
      intro n hinv hpos hlt
      rw [freqInvariant_unfold] at hinv
      cases hl : n.children.lookup s.ply.moveKey with
      | some c =>
          obtain ⟨hle, hc⟩ := freqInvariantForest_lookup _ _ _ _ hinv hl
          have hclt : c.frequency < n.frequency := hlt _ _ hl
          have hc1inv : freqInvariant (Node.pushGame (Node.bumpFreq c) g) = true := by
            rw [freqInvariant_unfold]
            simp only [Node.frequency_pushGame, Node.frequency_bumpFreq,
              Node.children_pushGame, Node.children_bumpFreq]
            rw [freqInvariant_unfold] at hc
            exact freqInvariantForest_mono _ _ _ (Nat.le_succ _) hc
          have hc1lt : ∀ k c2, (Node.pushGame (Node.bumpFreq c) g).children.lookup k =
              some c2 → c2.frequency < (Node.pushGame (Node.bumpFreq c) g).frequency := by
            intro k c2 hl2
            simp only [Node.children_pushGame, Node.children_bumpFreq] at hl2
            rw [freqInvariant_unfold] at hc
            have := (freqInvariantForest_lookup _ _ _ _ hc hl2).1
            simp only [Node.frequency_pushGame, Node.frequency_bumpFreq]
            omega
          have hc2inv := ih _ hc1inv (by simp) hc1lt
          have hc2freq : (insertB g rest (Node.pushGame (Node.bumpFreq c) g)).frequency =
              c.frequency + 1 := by
            rw [insertB_frequency]
            simp
          simp only [insertB, hl]
          rw [freqInvariant_withChildren]
          exact freqInvariantForest_upsert _ _ _ _ hinv (by omega) hc2inv
      | none =>
          have hc1inv : freqInvariant (Node.pushGame (Node.bumpFreq
              (Node.mk s.fen s.ply.san (some s.ply) .nil [] 0
                (some (idText n.nid ++ "_" ++ s.ply.moveKey)))) g) = true := rfl
          have hc1lt : ∀ k c2, (Node.pushGame (Node.bumpFreq
              (Node.mk s.fen s.ply.san (some s.ply) .nil [] 0
                (some (idText n.nid ++ "_" ++ s.ply.moveKey)))) g).children.lookup k =
              some c2 → c2.frequency < (Node.pushGame (Node.bumpFreq
              (Node.mk s.fen s.ply.san (some s.ply) .nil [] 0
                (some (idText n.nid ++ "_" ++ s.ply.moveKey)))) g).frequency := by
            intro k c2 hl2
            simp [Forest.lookup] at hl2
          have hc2inv := ih _ hc1inv (by simp) hc1lt
          have hc2freq : (insertB g rest (Node.pushGame (Node.bumpFreq
              (Node.mk s.fen s.ply.san (some s.ply) .nil [] 0
                (some (idText n.nid ++ "_" ++ s.ply.moveKey)))) g)).frequency = 1 := by
            rw [insertB_frequency]
            rfl
          simp only [insertB, hl]
          rw [freqInvariant_withChildren]
          exact freqInvariantForest_upsert _ _ _ _ hinv (by omega) hc2inv

theorem buildStep_inv (d : Nat) (t : Node) (seen : List String) (g : Game)
    (h : freqInvariant t = true) :
    freqInvariant (buildStep d (t, seen) g).1 = true := by
  unfold buildStep
  cases hpg : g.pgn with
  | none => simp only [hpg]; exact h
  | some parsed =>
      simp only [hpg]
      by_cases hseen : seen.contains g.id = true
      · simp only [hseen, if_true]
        exact h
      · cases parsed with
        | none => rw [if_neg hseen]; exact h
        | some steps =>
            rw [if_neg hseen]
            apply insertB_inv
            · rw [freqInvariant_unfold]
              simp only [Node.frequency_bumpFreq, Node.frequency_pushGame,
                Node.children_bumpFreq, Node.children_pushGame]
              rw [freqInvariant_unfold] at h
              exact freqInvariantForest_mono _ _ _ (Nat.le_succ _) h
            · simp
            · intro k c hl
              simp only [Node.children_bumpFreq, Node.children_pushGame] at hl
              rw [freqInvariant_unfold] at h
              have := (freqInvariantForest_lookup _ _ _ _ h hl).1
              simp only [Node.frequency_bumpFreq, Node.frequency_pushGame]
              omega

theorem buildFold_inv (d : Nat) :
    ∀ (G : List Game) (st : Node × List String), freqInvariant st.1 = true →
      freqInvariant (G.foldl (buildStep d) st).1 = true
  | [], _, h => h
  | g :: G, st, h => by
      obtain ⟨t, seen⟩ := st
      exact buildFold_inv d G (buildStep d (t, seen) g) (buildStep_inv d t seen g h)

mutual

theorem freqInvariant_pruneTreeNodes :
    ∀ (m : Nat) (n : Node), freqInvariant n = true →
      freqInvariant (pruneTreeNodes m n) = true
  | m, .mk f mv mo ch gs fr i, h => by
      simp only [pruneTreeNodes, freqInvariant] at h ⊢
      exact freqInvariantForest_pruneForest m fr ch h

theorem freqInvariantForest_pruneForest :
    ∀ (m pf : Nat) (ch : Forest), freqInvariantForest pf ch = true →
      freqInvariantForest pf (pruneForest m ch) = true
  | _, _, .nil, h => h
  | m, pf, .cons k c r, h => by
      simp only [freqInvariantForest, Bool.and_eq_true, decide_eq_true_eq] at h
      obtain ⟨⟨hle, hc⟩, hr⟩ := h
      simp only [pruneForest]
      by_cases hcm : c.frequency < m
      · rw [if_pos hcm]
        exact freqInvariantForest_pruneForest m pf r hr
      · rw [if_neg hcm]
        simp only [freqInvariantForest, Bool.and_eq_true, decide_eq_true_eq]
        exact ⟨⟨by rw [pruneTreeNodes_frequency]; exact hle,
          freqInvariant_pruneTreeNodes m c hc⟩,
          freqInvariantForest_pruneForest m pf r hr⟩

end

/-! ## Claim C8 -/

/-- Claim C8, counterexample.  The claim asserts
`frequency(N) ≤ frequency(parent(N))` for every tree produced by any
sequence of extend operations, including repeated extension with the
same games.  Repeating the extension breaks it: `incrementalBuildTree`
bumps every visited non-root node's frequency again while the root's
frequency (set once by `buildInitialTree`) never changes, so after
extending the one-game tree twice the `e2e4` child has frequency 2
with root frequency 1. -/
theorem repeated_extension_violates_freq_invariant :
    extendedTwice.frequency = 1 ∧
    childFrequencyAt extendedTwice "e2e4" = some 2 ∧
    freqInvariant extendedTwice = false := by
  exact ⟨by decide, by decide, by decide⟩

/-- Claim C8, amended.  The invariant does hold for every tree produced
by a single `buildVariationTree` pass (the accepted game bumps the root
before the move loop bumps each child, keeping every child strictly
below its parent until the same game bumps it, and pruning only removes
nodes): every non-root node's frequency is at most its parent's in the
returned tree, for every input. -/
theorem buildVariationTree_freq_invariant (games : Option (List Game))
    (maxDepth minGames : Nat) :
    freqInvariantOpt (buildVariationTree games maxDepth minGames) = true := by
  cases games with
  | none => rfl
  | some gs =>
      simp only [buildVariationTree]
      by_cases hlen : gs.length = 0
      · rw [if_pos hlen]
        rfl
      · rw [if_neg hlen]
        show freqInvariant (pruneTreeNodes minGames
          (gs.foldl (buildStep maxDepth) (buildRoot, [])).1) = true
        exact freqInvariant_pruneTreeNodes _ _
          (buildFold_inv maxDepth gs (buildRoot, []) rfl)

/-! ## Root bookkeeping of the treeUtils builder -/

theorem buildStep_eq (d : Nat) (t : Node) (seen : List String) (g : Game) :
    buildStep d (t, seen) g =
      match g.pgn with
      | none => (t, seen)
      | some parsed =>
          if seen.contains g.id = true then (t, seen)
          else
            match parsed with
            | none => (t, g.id :: seen)
            | some steps =>
                (insertB g.summary (steps.take d)
                  (Node.bumpFreq (t.pushGame g.summary)), g.id :: seen) := rfl

theorem buildFold_root_counts (d : Nat) :
    ∀ (G : List Game) (t : Node) (seen : List String),
      (∀ g ∈ G, hasParsedPgn g = true) →
      (G.foldl (buildStep d) (t, seen)).1.frequency =
        t.frequency + (dedupKeepFirst seen (G.map Game.id)).length ∧
      (G.foldl (buildStep d) (t, seen)).1.games.length =
        t.games.length + (dedupKeepFirst seen (G.map Game.id)).length := by
  intro G
  induction G with
  | nil => intro t seen _; simp [dedupKeepFirst]
  | cons g G ih =>
      intro t seen h
      have hg : hasParsedPgn g = true := h g (List.mem_cons_self g G)
      have hG : ∀ g2 ∈ G, hasParsedPgn g2 = true :=
        fun g2 hg2 => h g2 (List.mem_cons_of_mem g hg2)
      unfold hasParsedPgn at hg
      cases hpg : g.pgn with
      | none => rw [hpg] at hg; cases hg
      | some parsed =>
          cases parsed with
          | none => rw [hpg] at hg; cases hg
          | some steps =>
              rw [List.foldl_cons]
              by_cases hseen : seen.contains g.id = true
              · have hstep : buildStep d (t, seen) g = (t, seen) := by
                  simp only [buildStep_eq, hpg]
                  rw [if_pos hseen]
                rw [hstep, List.map_cons, dedupKeepFirst, if_pos hseen]
                exact ih t seen hG
              · have hstep : buildStep d (t, seen) g =
                    (insertB g.summary (steps.take d)
                      (Node.bumpFreq (t.pushGame g.summary)), g.id :: seen) := by
                  simp only [buildStep_eq, hpg]
                  rw [if_neg hseen]
                rw [hstep, List.map_cons, dedupKeepFirst, if_neg hseen]
                obtain ⟨ihf, ihg⟩ := ih (insertB g.summary (steps.take d)
                  (Node.bumpFreq (t.pushGame g.summary))) (g.id :: seen) hG
                constructor
                · rw [ihf, insertB_frequency]
                  simp only [Node.frequency_bumpFreq, Node.frequency_pushGame,
                    List.length_cons]
                  omega
                · rw [ihg, insertB_games]
                  simp only [Node.games_bumpFreq, Node.games_pushGame,
                    List.length_append, List.length_cons, List.length_nil]
                  omega

/-! ## Claim C7 -/

/-- Claim C7, counterexample.  The claim says the root's frequency after
building/extending equals the number of distinct game ids in `G` and is
updated once per game.  On the context path this fails:
`buildInitialTree` sets the root frequency once to `loadedGames.length`
and `incrementalBuildTree` never touches it, so for a list repeating
the id `g1` twice the root frequency is 2 while there is 1 distinct id
(and the deduplicated root game list has a single entry). -/
theorem ctx_root_frequency_counts_duplicates :
    (incrementalBuildTree (ctxInitialTree [gameOne, gameOneDup])
      [gameOne, gameOneDup] 5).frequency = 2 ∧
    (dedupKeepFirst [] ([gameOne, gameOneDup].map Game.id)).length = 1 ∧
    rootGameIds (incrementalBuildTree (ctxInitialTree [gameOne, gameOneDup])
      [gameOne, gameOneDup] 5) = ["g1"] := by
  exact ⟨by decide, by decide, by decide⟩

/-- Claim C7, amended.  For the treeUtils builder `buildVariationTree`
on a non-empty game list whose games all carry a parseable pgn, the
root's frequency and the root's game-list length both equal the number
of distinct game ids (the `gameMap` admits each id once and the root is
updated once per accepted game, before the per-ply loop).  On the
context path the root's frequency is instead set once, up front, to the
raw length of the game list — duplicate ids included — and never
updated again. -/
theorem root_frequency_counts_distinct_ids (gs : List Game) (d m : Nat)
    (hne : gs ≠ []) (hp : gs.all hasParsedPgn = true) :
    (buildVariationTree (some gs) d m).map Node.frequency =
      some (dedupKeepFirst [] (gs.map Game.id)).length ∧
    (buildVariationTree (some gs) d m).map (fun t => t.games.length) =
      some (dedupKeepFirst [] (gs.map Game.id)).length ∧
    (incrementalBuildTree (ctxInitialTree gs) gs d).frequency = gs.length := by
  have hlen : ¬ gs.length = 0 := by
    intro h0
    exact hne (List.length_eq_zero.mp h0)
  have hall : ∀ g ∈ gs, hasParsedPgn g = true := by
    intro g hg
    exact List.all_eq_true.mp hp g hg
  have hbuild : buildVariationTree (some gs) d m =
      some (pruneTreeNodes m (gs.foldl (buildStep d) (buildRoot, [])).1) := by
    simp only [buildVariationTree, if_neg hlen]
  obtain ⟨hf, hgl⟩ := buildFold_root_counts d gs buildRoot [] hall
  refine ⟨?_, ?_, ?_⟩
  · rw [hbuild]
    show some ((pruneTreeNodes m (gs.foldl (buildStep d) (buildRoot, [])).1).frequency) = _
    rw [pruneTreeNodes_frequency, hf]
    show some (0 + _) = _
    rw [Nat.zero_add]
  · rw [hbuild]
    show some ((pruneTreeNodes m
      (gs.foldl (buildStep d) (buildRoot, [])).1).games.length) = _
    rw [pruneTreeNodes_games, hgl]
    show some (0 + _) = _
    rw [Nat.zero_add]
  · rw [incrementalBuildTree_frequency]
    rfl

/-- Claim C7, witness: the amended theorem applied to the concrete
two-game list, discharging both hypotheses. -/
theorem root_frequency_counts_distinct_ids_witness :
    ([gameOne, gameTwo] ≠ [] ∧ [gameOne, gameTwo].all hasParsedPgn = true) ∧
    ((buildVariationTree (some [gameOne, gameTwo]) 2 1).map Node.frequency =
      some (dedupKeepFirst [] ([gameOne, gameTwo].map Game.id)).length ∧
    (buildVariationTree (some [gameOne, gameTwo]) 2 1).map
        (fun t => t.games.length) =
      some (dedupKeepFirst [] ([gameOne, gameTwo].map Game.id)).length ∧
    (incrementalBuildTree (ctxInitialTree [gameOne, gameTwo])
      [gameOne, gameTwo] 2).frequency = [gameOne, gameTwo].length) :=
  ⟨⟨by decide, by decide⟩,
    root_frequency_counts_distinct_ids [gameOne, gameTwo] 2 1
      (by decide) (by decide)⟩

/-! ## Claim C2 -/

theorem runChunk_single (j : BuildJob) (hle : j.games.length ≤ chunkSize)
    (hidx : j.idx = 0) :
    runChunk j = .inr (pruneTreeCtx j.minGameCount
      (incrementalBuildTree j.tree j.games j.depth)) := by
  unfold runChunk
  rw [hidx]
  have hmin : min (0 + chunkSize) j.games.length = j.games.length := by
    unfold chunkSize at *
    omega
  rw [hmin, if_neg (lt_irrefl _)]
  rw [List.drop_zero, Nat.sub_zero, List.take_length]

/-- Claim C2, counterexample.  The claim says that in every interleaving
a superseded build's completion is discarded via a generation token and
never overwrites the newer build's published tree.  The code has no
token: with the stale build (game `g1`) and the newer build (game `g2`)
both in flight, the interleaving that lets the newer build finish first
and then runs the stale build's pending chunk ends with `treeData`
holding the stale build's tree (root ids `["g1"]`), not the newer
build's (`["g2"]`). -/
theorem stale_result_published :
    ((runSched racedState [1, 0]).treeData).map rootGameIds = some ["g1"] ∧
    ((runSched racedState [1]).treeData).map rootGameIds = some ["g2"] ∧
    ((runSched racedState [1, 0]).treeData).map rootGameIds ≠
      ((runSched racedState [1]).treeData).map rootGameIds := by
  exact ⟨by decide, by decide, by decide⟩

/-- Claim C2, amended.  `startTreeBuilding` has no generation token;
every in-flight build runs to completion and publishes.  For any two
single-chunk builds pending together — the older one superseded by the
newer — the interleaving that schedules the newer build's chunk first
and the stale build's chunk last ends with the stale build's pruned
tree published in `treeData`, overwriting the newer build's result. -/
theorem stale_build_overwrites_newer (jA jB : BuildJob)
    (hA : jA.games.length ≤ chunkSize) (hB : jB.games.length ≤ chunkSize)
    (hAidx : jA.idx = 0) (hBidx : jB.idx = 0) :
    runSched ⟨none, [jA, jB]⟩ [1, 0] =
      ⟨some (pruneTreeCtx jA.minGameCount
        (incrementalBuildTree jA.tree jA.games jA.depth)), []⟩ := by
  have hA2 := runChunk_single jA hA hAidx
  have hB2 := runChunk_single jB hB hBidx
  have hstep1 : schedStep ⟨none, [jA, jB]⟩ 1 =
      ⟨some (pruneTreeCtx jB.minGameCount
        (incrementalBuildTree jB.tree jB.games jB.depth)), [jA]⟩ := by
    unfold schedStep
    simp only [List.getElem?_cons_succ, List.getElem?_cons_zero]
    rw [hB2]
    rfl
  have hstep2 : schedStep ⟨some (pruneTreeCtx jB.minGameCount
      (incrementalBuildTree jB.tree jB.games jB.depth)), [jA]⟩ 0 =
      ⟨some (pruneTreeCtx jA.minGameCount
        (incrementalBuildTree jA.tree jA.games jA.depth)), []⟩ := by
    unfold schedStep
    simp only [List.getElem?_cons_zero]
    rw [hA2]
    rfl
  show schedStep (schedStep ⟨none, [jA, jB]⟩ 1) 0 = _
  rw [hstep1, hstep2]

/-- Claim C2, witness: the amended theorem applied to the two concrete
pending builds of `racedState`, discharging every hypothesis. -/
theorem stale_build_overwrites_newer_witness :
    (staleJob.games.length ≤ chunkSize ∧ freshJob.games.length ≤ chunkSize ∧
      staleJob.idx = 0 ∧ freshJob.idx = 0) ∧
    runSched ⟨none, [staleJob, freshJob]⟩ [1, 0] =
      ⟨some (pruneTreeCtx staleJob.minGameCount
        (incrementalBuildTree staleJob.tree staleJob.games staleJob.depth)), []⟩ :=
  ⟨⟨by decide, by decide, by decide, by decide⟩,
    stale_build_overwrites_newer staleJob freshJob
      (by decide) (by decide) (by decide) (by decide)⟩
